import Mathlib

/-!
Verification of the procedural-memory MCP server (`src/server.ts`).

The repository's `server.ts` contains two concatenated variants of the
server implementation.  This development shallowly embeds the text-to-steps
extraction pipeline, the spaced-repetition scheduler and the review-queue /
review-state handlers of both variants.

Modelling conventions:
* JS strings are embedded as `List Char`; all inputs of interest are ASCII,
  so `Char.toLower` / `Char.toUpper` and ASCII character classes coincide
  with the JS `toLowerCase` / `toUpperCase` / `\w` / `\d` / `\s` behaviour
  on the strings considered.
* The module-level regexes `actionPatterns` carry the `g` flag, so each
  `RegExp.test` call reads and writes the regex's `lastIndex`.  This mutable
  state is embedded explicitly as `RegexState` and threaded through the
  extraction functions.
* Calendar dates (`YYYY-MM-DD` strings in the code) are embedded as day
  numbers (`Nat`, days since an arbitrary epoch); the `Date` round-trip
  `new Date(s)` / `setDate(getDate() + k)` / `toISOString().split('T')[0]`
  is modelled as exact calendar-day addition, which is its behaviour on a
  host whose clock is UTC.  The `YYYY-MM-DD` rendering is injective and
  monotone, so equality and ordering of dates transfer.
* The JS floating comparison `overlap / max > 0.7` is embedded as the exact
  rational comparison `10 * overlap > 7 * max`; for the integer ranges a
  token count can take, the two agree.
-/

set_option linter.unusedVariables false

namespace ProcMem

/-- JS `\s` restricted to ASCII whitespace characters. -/
def isWsChar (c : Char) : Bool :=
  c == ' ' || c == '\t' || c == '\n' || c == '\r' || c == '\x0b' || c == '\x0c'

/-- The sentence separator class `[.!?]` used by `content.split(/[.!?]+/)`. -/
def isSentenceSep (c : Char) : Bool :=
  c == '.' || c == '!' || c == '?'

/-- JS `\w`, the word-character class `[A-Za-z0-9_]` used by `\b`. -/
def isWordChar (c : Char) : Bool :=
  c.isAlphanum || c == '_'

/-- ASCII lower-casing of a string, JS `toLowerCase` on ASCII input. -/
def lower (l : List Char) : List Char := l.map Char.toLower

/-- JS `String.prototype.trim` (ASCII whitespace). -/
def trim (l : List Char) : List Char :=
  ((l.dropWhile isWsChar).reverse.dropWhile isWsChar).reverse

/-- JS `s.split(re)` where `re` is a character class with `+`
(e.g. `/[.!?]+/` or `/\s+/`): maximal runs of separator characters act as a
single separator; a leading or trailing run yields an empty segment, and
`"".split` yields `[""]`. -/
def jsSplit (isSep : Char → Bool) : List Char → List (List Char)
  | [] => [[]]
  | c :: cs =>
    if isSep c then
      match cs with
      | d :: _ =>
        if isSep d then jsSplit isSep cs else [] :: jsSplit isSep cs
      | [] => [] :: jsSplit isSep cs
    else
      match jsSplit isSep cs with
      | [] => [[c]]
      | seg :: rest => (c :: seg) :: rest

/-- JS `s.split(sep)` for a single-character literal separator (`'\n'`):
runs are not collapsed. -/
def jsSplitChar (sep : Char) : List Char → List (List Char)
  | [] => [[]]
  | c :: cs =>
    if c == sep then [] :: jsSplitChar sep cs
    else
      match jsSplitChar sep cs with
      | [] => [[c]]
      | seg :: rest => (c :: seg) :: rest

/-- Whether position `i` of `l` holds a word character (out of range counts
as a non-word position, as at the ends of a JS string). -/
def isWordAt (l : List Char) (i : Nat) : Bool :=
  match l.get? i with
  | some c => isWordChar c
  | none => false

/-- JS `\b` holds at position `p` looking left: start of string or a
non-word character before `p`.  (All pattern alternatives start with a word
character, so this is the effective start condition.) -/
def boundaryBefore (l : List Char) (p : Nat) : Bool :=
  p == 0 || !(isWordAt l (p - 1))

/-- JS `\b` holds after match end `e`: end of string or a non-word character
at `e`.  (All pattern alternatives end with a word character.) -/
def boundaryAfterEnd (l : List Char) (e : Nat) : Bool :=
  !(isWordAt l e)

/-- One alternative of an embedded regex alternation: a case-insensitive
literal (which may contain literal spaces, e.g. `need to`), or the special
alternative `step\s+\d+` of the second action pattern. -/
inductive PatAlt where
  | lit : List Char → PatAlt
  | stepNum : PatAlt

/-- Case-insensitive literal match of `w` (stored lower-case) at position
`p` of `s`; returns the end position on success. -/
def litMatchAt (w : List Char) (s : List Char) (p : Nat) : Option Nat :=
  if lower ((s.drop p).take w.length) == w then some (p + w.length) else none

/-- Match of the alternative `step\s+\d+` at position `p` of `s`:
`step`, then a maximal nonempty whitespace run, then a maximal nonempty
digit run.  (Greedy matching; backtracking cannot produce any other end
position for this alternative.) -/
def stepNumMatchAt (s : List Char) (p : Nat) : Option Nat :=
  if lower ((s.drop p).take 4) == "step".data then
    let rest := s.drop (p + 4)
    let w := (rest.takeWhile isWsChar).length
    if w == 0 then none
    else
      let d := ((rest.drop w).takeWhile Char.isDigit).length
      if d == 0 then none else some (p + 4 + w + d)
  else none

/-- Match of one alternative at position `p` (without boundary checks). -/
def altMatchAt : PatAlt → List Char → Nat → Option Nat
  | .lit w, s, p => litMatchAt w s p
  | .stepNum, s, p => stepNumMatchAt s p

/-- Match of one alternative at `p` with the trailing `\b` checked (the
regex backtracks into the next alternative when the trailing boundary
fails). -/
def altMatchChecked (a : PatAlt) (s : List Char) (p : Nat) : Option Nat :=
  match altMatchAt a s p with
  | some e => if boundaryAfterEnd s e then some e else none
  | none => none

/-- Match of `\b(alt1|alt2|...)\b` exactly at position `p`: leading
boundary, then the first alternative (in pattern order) that matches with
its trailing boundary. -/
def patMatchAtPos (alts : List PatAlt) (s : List Char) (p : Nat) : Option Nat :=
  if boundaryBefore s p then alts.findSome? (fun a => altMatchChecked a s p)
  else none

/-- Leftmost match of the pattern in `s` at a position `≥ i`; returns the
match end.  `i` is the regex's `lastIndex`; a value past the end of the
string yields no match, as in JS. -/
def patFindFrom (alts : List PatAlt) (s : List Char) (i : Nat) : Option Nat :=
  ((List.range (s.length + 1)).drop i).findSome?
    (fun p => patMatchAtPos alts s p)

/-- JS `RegExp.prototype.test` on a regex with the `g` flag: search from
`lastIndex`; on success return `true` and the new `lastIndex` (the match
end), on failure return `false` and reset `lastIndex` to `0`. -/
def regexTest (alts : List PatAlt) (s : List Char) (lastIndex : Nat) :
    Bool × Nat :=
  match patFindFrom alts s lastIndex with
  | some e => (true, e)
  | none => (false, 0)

/-- Word list of the first action pattern (`server.ts` line 14 and 306). -/
def pattern1Words : List String :=
  ["click", "select", "enter", "type", "navigate", "open", "create", "set",
   "configure", "add", "remove", "update", "install", "download", "upload",
   "save", "delete", "copy", "paste", "cut", "move", "drag", "drop",
   "scroll", "zoom", "rotate", "resize"]

/-- First action pattern `/\b(click|select|...|resize)\b/gi`. -/
def actionPattern1 : List PatAlt :=
  pattern1Words.map (fun w => PatAlt.lit w.data)

/-- Second action pattern `/\b(step\s+\d+|first|then|...|continue)\b/gi`. -/
def actionPattern2 : List PatAlt :=
  PatAlt.stepNum ::
    (["first", "then", "next", "after", "finally", "begin", "start",
      "proceed", "continue"].map (fun w => PatAlt.lit w.data))

/-- Third action pattern
`/\b(should|must|need to|have to|required to|make sure|ensure|verify|check|confirm)\b/gi`. -/
def actionPattern3 : List PatAlt :=
  ["should", "must", "need to", "have to", "required to", "make sure",
   "ensure", "verify", "check", "confirm"].map (fun w => PatAlt.lit w.data)

/-- The mutable `lastIndex` fields of the three module-level `/g` regexes in
`actionPatterns`. -/
structure RegexState where
  last1 : Nat
  last2 : Nat
  last3 : Nat
deriving DecidableEq, Repr

/-- State of the module-level regexes when the process starts. -/
def initialRegexState : RegexState := ⟨0, 0, 0⟩

/-- The inner loop of `extractProcedureSteps` testing one trimmed sentence
against the three patterns with early exit (`break`): a pattern that is not
reached keeps its `lastIndex`. -/
def testActionPatterns (s : List Char) (σ : RegexState) : Bool × RegexState :=
  let r1 := regexTest actionPattern1 s σ.last1
  if r1.1 then (true, { σ with last1 := r1.2 })
  else
    let r2 := regexTest actionPattern2 s σ.last2
    if r2.1 then (true, { last1 := r1.2, last2 := r2.2, last3 := σ.last3 })
    else
      let r3 := regexTest actionPattern3 s σ.last3
      (r3.1, { last1 := r1.2, last2 := r2.2, last3 := r3.2 })

/-- The `ProcedureStep` record (`server.ts` lines 7-10 and 236-239). -/
structure ProcedureStep where
  order : Nat
  description : List Char
deriving DecidableEq, Repr

/-- The `for (const sentence of sentences)` loop of the first
`extractProcedureSteps` variant (lines 98-117): trim, skip empty, test the
action patterns (threading their `lastIndex` state), and collect actionable
sentences with densely increasing `order`. -/
def candidateLoop1 :
    List (List Char) → Nat → RegexState → List ProcedureStep × RegexState
  | [], _, σ => ([], σ)
  | sentence :: rest, order, σ =>
    let trimmed := trim sentence
    if trimmed.isEmpty then candidateLoop1 rest order σ
    else
      let t := testActionPatterns trimmed σ
      if t.1 then
        let r := candidateLoop1 rest (order + 1) t.2
        (⟨order, trimmed⟩ :: r.1, r.2)
      else candidateLoop1 rest order t.2

/-- The lenient fallback loop of the first variant (lines 121-129): keep
any line whose trimmed form is longer than 10 characters. -/
def fallbackLoop1 : List (List Char) → Nat → List ProcedureStep
  | [], _ => []
  | line :: rest, order =>
    if 10 < (trim line).length then
      ⟨order, trim line⟩ :: fallbackLoop1 rest (order + 1)
    else fallbackLoop1 rest order

/-- The sentence loop of the second `extractProcedureSteps` variant
(lines 616-635); textually identical to `candidateLoop1`, duplicated as in
the source. -/
def candidateLoop2 :
    List (List Char) → Nat → RegexState → List ProcedureStep × RegexState
  | [], _, σ => ([], σ)
  | sentence :: rest, order, σ =>
    let trimmed := trim sentence
    if trimmed.isEmpty then candidateLoop2 rest order σ
    else
      let t := testActionPatterns trimmed σ
      if t.1 then
        let r := candidateLoop2 rest (order + 1) t.2
        (⟨order, trimmed⟩ :: r.1, r.2)
      else candidateLoop2 rest order t.2

/-- The fallback loop of the second variant (lines 639-647); textually
identical to `fallbackLoop1`. -/
def fallbackLoop2 : List (List Char) → Nat → List ProcedureStep
  | [], _ => []
  | line :: rest, order =>
    if 10 < (trim line).length then
      ⟨order, trim line⟩ :: fallbackLoop2 rest (order + 1)
    else fallbackLoop2 rest order

/-- Word list of the refinement regexes in `applyRefinementRules`
(lines 168 and 170): the first pattern's words plus `go`, `press`,
`choose`, `fill`. -/
def refineVerbWords : List String :=
  pattern1Words ++ ["go", "press", "choose", "fill"]

/-- The test `/^(click|select|...|fill)/i.test(refined)` (line 168).  Note
there is no trailing `\b`: any string merely beginning with one of the
verbs passes. -/
def startsWithActionVerb (s : List Char) : Bool :=
  refineVerbWords.any (fun w => lower (s.take w.data.length) == w.data)

/-- The search `refined.match(/(click|...|fill)[^.]*$/i)` (line 170):
leftmost position (alternatives in order) where a verb literal matches and
no `.` occurs afterwards; the match text runs from there to the end of the
string. -/
def actionClauseFrom (s : List Char) : Option (List Char) :=
  (List.range s.length).findSome? fun p =>
    refineVerbWords.findSome? fun w =>
      if lower ((s.drop p).take w.data.length) == w.data
          && !((s.drop (p + w.data.length)).contains '.') then
        some (s.drop p)
      else none

/-- JS `s.charAt(0).toUpperCase() + s.slice(1)`. -/
def capitalize : List Char → List Char
  | [] => []
  | c :: cs => c.toUpper :: cs

/-- The filler phrases of `/^(you should|you need to|you must|make sure to|be sure to)\s+/i`
(line 180). -/
def fillerPhrases : List String :=
  ["you should", "you need to", "you must", "make sure to", "be sure to"]

/-- One application of `replace(/^(ph1|ph2|...)\s+/i, '')`: the first
phrase (in order) that matches case-insensitively at the start and is
followed by at least one whitespace character is removed together with the
maximal whitespace run. -/
def stripFillerPhrase (phrases : List String) (s : List Char) : List Char :=
  match phrases.findSome? (fun ph =>
      if lower (s.take ph.data.length) == ph.data then
        let rest := s.drop ph.data.length
        let k := (rest.takeWhile isWsChar).length
        if 0 < k then some (rest.drop k) else none
      else none) with
  | some r => r
  | none => s

/-- JS `replace(/^(step \d+[:.]\s*)/i, '')` (line 181): `step`, a literal
space, one or more digits, a colon or dot, then optional whitespace. -/
def stripStepNum (s : List Char) : List Char :=
  if lower (s.take 5) == "step ".data then
    let rest := s.drop 5
    let d := (rest.takeWhile Char.isDigit).length
    if 0 < d then
      match rest.drop d with
      | c :: rest2 =>
        if c == ':' || c == '.' then rest2.dropWhile isWsChar else s
      | [] => s
    else s
  else s

/-- JS `replace(/^(word,?\s*)/i, '')` (lines 182-184): the leading word, an
optional comma, then optional whitespace. -/
def stripLeadWord (w : List Char) (s : List Char) : List Char :=
  if lower (s.take w.length) == w then
    let rest := s.drop w.length
    let rest2 :=
      match rest with
      | c :: r => if c == ',' then r else rest
      | [] => rest
    rest2.dropWhile isWsChar
  else s

/-- The `/[.!?]$/` check and terminal-dot insertion (lines 187-189). -/
def ensureTerminal (s : List Char) : List Char :=
  match s.getLast? with
  | some c => if c == '.' || c == '!' || c == '?' then s else s ++ ['.']
  | none => s ++ ['.']

/-- The `applyRefinementRules` function (lines 164-192), steps applied in source order:
action-verb extraction, capitalization, filler stripping, terminal
punctuation. -/
def applyRefinementRules (description : List Char) : List Char :=
  let r0 := trim description
  let r1 :=
    if startsWithActionVerb r0 then r0
    else
      match actionClauseFrom r0 with
      | some clause => capitalize clause
      | none => r0
  let r2 := capitalize r1
  let r3 := stripFillerPhrase fillerPhrases r2
  let r4 := stripStepNum r3
  let r5 := stripLeadWord "next".data r4
  let r6 := stripLeadWord "then".data r5
  let r7 := stripLeadWord "after that".data r6
  ensureTerminal r7

/-- JS `description.toLowerCase().replace(/[^a-z0-9\s]/g, '').trim()`
(lines 196 and 199). -/
def normalizeDesc (s : List Char) : List Char :=
  trim ((lower s).filter (fun c => c.isLower || c.isDigit || isWsChar c))

/-- JS `big.includes(small)`: substring test (always true for the empty
string). -/
def jsIncludes (big small : List Char) : Bool :=
  (List.range (big.length + 1)).any
    (fun p => (big.drop p).take small.length == small)

/-- JS `normalized.split(/\s+/)` (lines 209-210). -/
def splitWords (s : List Char) : List (List Char) := jsSplit isWsChar s

/-- JS `words1.filter(word => words2.includes(word)).length` (line 211). -/
def overlapCount (ws1 ws2 : List (List Char)) : Nat :=
  (ws1.filter (fun w => ws2.contains w)).length

/-- The `isRedundantStep` function (lines 195-220).  The float comparison
`overlap / max > 0.7` is embedded as `10 * overlap > 7 * max`. -/
def isRedundantStep (description : List Char)
    (existingSteps : List ProcedureStep) : Bool :=
  let normalized := normalizeDesc description
  existingSteps.any fun step =>
    let existing := normalizeDesc step.description
    (normalized == existing) ||
    (jsIncludes normalized existing) ||
    (jsIncludes existing normalized) ||
    (let words1 := splitWords normalized
     let words2 := splitWords existing
     let overlap := overlapCount words1 words2
     decide (7 * max words1.length words2.length < 10 * overlap))

/-- The `for (const step of steps)` loop of `refineSteps` (lines 145-158),
accumulating the kept steps. -/
def refineLoop : List ProcedureStep → List ProcedureStep → List ProcedureStep
  | [], acc => acc
  | step :: rest, acc =>
    let description := applyRefinementRules step.description
    if decide (5 < description.length) && !isRedundantStep description acc then
      refineLoop rest (acc ++ [⟨acc.length + 1, description⟩])
    else
      refineLoop rest acc

/-- The `refineSteps` function (lines 142-161): refine and deduplicate; fall back to the
original steps when every candidate was dropped.  The `refinementPrompt`
argument is accepted but, exactly as in the source, never inspected. -/
def refineSteps (steps : List ProcedureStep) (refinementPrompt : List Char) :
    List ProcedureStep :=
  let refinedSteps := refineLoop steps []
  if 0 < refinedSteps.length then refinedSteps else steps

/-- The `DEFAULT_REFINEMENT_PROMPT` constant (lines 20-42); its content is irrelevant to
the step computation. -/
def DEFAULT_REFINEMENT_PROMPT : String :=
  "Analyze the following extracted procedural steps and refine them."

/-- JS `refinementPrompt || DEFAULT_REFINEMENT_PROMPT` (line 134); JS `||`
treats the empty string as falsy. -/
def promptToUse (p : Option (List Char)) : List Char :=
  match p with
  | some s => if s.isEmpty then DEFAULT_REFINEMENT_PROMPT.data else s
  | none => DEFAULT_REFINEMENT_PROMPT.data

/-- First variant of `extractProcedureSteps` (lines 93-139): sentence
split, pattern-based candidate selection, newline fallback, then
`refineSteps` whenever at least one candidate exists.  The regex
`lastIndex` state is threaded explicitly. -/
def extractProcedureSteps (content : List Char)
    (refinementPrompt : Option (List Char)) (σ : RegexState) :
    List ProcedureStep × RegexState :=
  let sentences :=
    (jsSplit isSentenceSep content).filter (fun s => !(trim s).isEmpty)
  let c := candidateLoop1 sentences 1 σ
  let steps1 :=
    if c.1.isEmpty then
      fallbackLoop1
        ((jsSplitChar '\n' content).filter (fun l => !(trim l).isEmpty)) 1
    else c.1
  let steps2 :=
    if steps1.isEmpty then steps1
    else refineSteps steps1 (promptToUse refinementPrompt)
  (steps2, c.2)

/-- Second variant of `extractProcedureSteps` (lines 611-658): identical
candidate selection and fallback, but the steps are returned unrefined (the
refinement prompt is only logged). -/
def extractProcedureSteps2 (content : List Char)
    (refinementPrompt : Option (List Char)) (σ : RegexState) :
    List ProcedureStep × RegexState :=
  let sentences :=
    (jsSplit isSentenceSep content).filter (fun s => !(trim s).isEmpty)
  let c := candidateLoop2 sentences 1 σ
  let steps1 :=
    if c.1.isEmpty then
      fallbackLoop2
        ((jsSplitChar '\n' content).filter (fun l => !(trim l).isEmpty)) 1
    else c.1
  (steps1, c.2)

/-- The algorithm selector, a closed enumeration (`"motor" | "cognitive"`). -/
inductive Algorithm where
  | motor : Algorithm
  | cognitive : Algorithm
deriving DecidableEq, Repr

/-- One entry of an algorithm template (`{ day, label }`). -/
structure ScheduleEntry where
  day : Nat
  label : String
deriving DecidableEq, Repr

/-- The `algorithmSchedules` tables (lines 258-299). -/
def algorithmSchedules : Algorithm → List ScheduleEntry
  | .motor =>
    [⟨1, "Day 1: Initial Learning"⟩,
     ⟨2, "Day 2: Practice"⟩,
     ⟨3, "Day 3: Practice"⟩,
     ⟨4, "Day 4: Alternate Practice"⟩,
     ⟨6, "Day 6: Alternate Practice"⟩,
     ⟨10, "Day 10: Bi-weekly Practice"⟩,
     ⟨14, "Day 14: Bi-weekly Practice"⟩,
     ⟨21, "Week 3: Weekly Maintenance"⟩,
     ⟨28, "Week 4: Weekly Maintenance"⟩,
     ⟨35, "Week 5: Weekly Maintenance"⟩,
     ⟨42, "Week 6: Weekly Maintenance"⟩,
     ⟨56, "Month 2: Bi-weekly"⟩,
     ⟨70, "Month 2.5: Bi-weekly"⟩,
     ⟨84, "Month 3: Bi-weekly"⟩,
     ⟨112, "Month 4: Monthly"⟩,
     ⟨140, "Month 5: Monthly"⟩,
     ⟨168, "Month 6: Monthly"⟩,
     ⟨365, "Year 1: Monthly"⟩]
  | .cognitive =>
    [⟨1, "Day 1: Initial Learning"⟩,
     ⟨2, "Day 2: Critical Review"⟩,
     ⟨3, "Day 3: Spaced Practice"⟩,
     ⟨5, "Day 5: Spaced Practice"⟩,
     ⟨8, "Day 8: Spaced Practice"⟩,
     ⟨14, "Day 14: Consolidation"⟩,
     ⟨21, "Day 21: Consolidation"⟩,
     ⟨28, "Week 4: Weekly Practice"⟩,
     ⟨35, "Week 5: Weekly Practice"⟩,
     ⟨42, "Week 6: Weekly Practice"⟩,
     ⟨49, "Week 7: Weekly Practice"⟩,
     ⟨63, "Month 2: Bi-weekly"⟩,
     ⟨77, "Month 2.5: Bi-weekly"⟩,
     ⟨91, "Month 3: Bi-weekly"⟩,
     ⟨120, "Month 4: Monthly"⟩,
     ⟨150, "Month 5: Monthly"⟩,
     ⟨180, "Month 6: Monthly"⟩,
     ⟨240, "Month 8: Extended"⟩]

/-- The `ReviewDate` record (lines 241-245); `date` is a calendar-day number
(see the header comment on the date embedding). -/
structure ReviewDate where
  date : Nat
  label : String
  completed : Bool
deriving DecidableEq, Repr

/-- The `calculateReviewDates` function (lines 661-674): for each template entry,
`reviewDate = startDate + (item.day - 1)` calendar days. -/
def calculateReviewDates (startDate : Nat) (algorithm : Algorithm) :
    List ReviewDate :=
  (algorithmSchedules algorithm).map
    (fun item => ⟨startDate + (item.day - 1), item.label, false⟩)

/-- The `Procedure` record (lines 247-255).  `currentStep` is stored as `Int`
because the handlers assign `reviewIndex + 1` for a caller-supplied JS
number `reviewIndex`. -/
structure Procedure where
  id : String
  title : String
  steps : List ProcedureStep
  algorithm : Algorithm
  createdAt : Nat
  currentStep : Int
  reviewDates : List ReviewDate
deriving DecidableEq, Repr

/-- JS `procedures.get(procedureId)` on the module-level `Map` (line 302),
embedded as lookup in a list with unique ids. -/
def findProc (store : List Procedure) (pid : String) : Option Procedure :=
  store.find? (fun p => p.id == pid)

/-- In-place mutation of the procedure object returned by `Map.get`: the
first (in a real `Map`, unique) entry with the given id is replaced. -/
def updateStore : List Procedure → String → Procedure → List Procedure
  | [], _, _ => []
  | q :: rest, pid, p =>
    if q.id == pid then p :: rest else q :: updateStore rest pid p

/-- JS array subscript `l[i]` for an integer index: `undefined` (`none`)
for a negative or out-of-range index. -/
def getI {α : Type} (l : List α) (i : Int) : Option α :=
  if 0 ≤ i then l.get? i.toNat else none

/-- Outcome of a tool handler: a produced value, one of the two tagged
error responses, or a thrown `TypeError` from reading a property of
`undefined`. -/
inductive Outcome (α : Type) where
  | ok : α → Outcome α
  | notFound : Outcome α
  | invalidIndex : Outcome α
  | typeError : Outcome α
deriving DecidableEq, Repr

/-- Response payload of `mark_reviewed` (lines 496-508). -/
structure MarkResult where
  completedReview : String
  nextReview : Option (Nat × String)
deriving DecidableEq, Repr

/-- The `mark_reviewed` handler (lines 463-509).  The only index check is
`reviewIndex >= procedure.reviewDates.length`; a negative index reaches the
array subscript and throws.  `nextReview` is
`reviewDates.find((r, i) => i > reviewIndex && !r.completed)` on the
updated array. -/
def markReviewed (store : List Procedure) (procedureId : String)
    (reviewIndex : Int) : Outcome (List Procedure × MarkResult) :=
  match findProc store procedureId with
  | none => .notFound
  | some procedure =>
    if (procedure.reviewDates.length : Int) ≤ reviewIndex then .invalidIndex
    else
      match getI procedure.reviewDates reviewIndex with
      | none => .typeError
      | some ev =>
        let newDates :=
          procedure.reviewDates.set reviewIndex.toNat
            { ev with completed := true }
        let newProc :=
          { procedure with
              reviewDates := newDates, currentStep := reviewIndex + 1 }
        let next :=
          (newDates.enum.find?
              (fun p => decide (reviewIndex < (p.1 : Int)) && !p.2.completed)
            ).map (fun p => (p.2.date, p.2.label))
        .ok (updateStore store procedureId newProc, ⟨ev.label, next⟩)

/-- The `delay_review` handler (lines 523-553).  There is no index check at
all: any out-of-range or negative index reaches
`procedure.reviewDates[reviewIndex].date` and throws.  On success the date
advances by one calendar day and the new date is reported. -/
def delayReview (store : List Procedure) (procedureId : String)
    (reviewIndex : Int) : Outcome (List Procedure × Nat) :=
  match findProc store procedureId with
  | none => .notFound
  | some procedure =>
    match getI procedure.reviewDates reviewIndex with
    | none => .typeError
    | some ev =>
      let newDates :=
        procedure.reviewDates.set reviewIndex.toNat
          { ev with date := ev.date + 1 }
      let newProc := { procedure with reviewDates := newDates }
      .ok (updateStore store procedureId newProc, ev.date + 1)

/-- Iterated handler: `n` successive `delay_review` calls on the same procedure and index;
`none` as soon as one of them fails to produce an updated store. -/
def delayIter : Nat → List Procedure → String → Int → Option (List Procedure)
  | 0, store, _, _ => some store
  | n + 1, store, pid, idx =>
    match delayReview store pid idx with
    | .ok (s, _) => delayIter n s pid idx
    | _ => none

/-- One element of the `get_review_queue` response (lines 415-422). -/
structure ReviewItem where
  procedureId : String
  title : String
  algorithm : Algorithm
  reviewIndex : Nat
  reviewLabel : String
  stepCount : Nat
deriving DecidableEq, Repr

/-- The item pushed for a due review of `procedure` at schedule position
`index` (lines 427-434). -/
def mkReviewItem (procedure : Procedure) (index : Nat) (review : ReviewDate) :
    ReviewItem :=
  ⟨procedure.id, procedure.title, procedure.algorithm, index, review.label,
   procedure.steps.length⟩

/-- The `get_review_queue` handler (lines 413-449): nested `forEach`
pushing an item for every review event with matching date and
`completed == false`.  The handler has no failure path. -/
def getReviewQueue (store : List Procedure) (date : Nat) :
    Outcome (List ReviewItem) :=
  .ok (store.foldl
    (fun acc procedure =>
      procedure.reviewDates.enum.foldl
        (fun acc2 p =>
          if p.2.date == date && !p.2.completed then
            acc2 ++ [mkReviewItem procedure p.1 p.2]
          else acc2)
        acc)
    [])

/-! ### Generic helper lemmas -/

/-- A nonempty list is not `isEmpty`. -/
lemma isEmpty_false_of_ne_nil {α : Type} {l : List α} (h : l ≠ []) :
    l.isEmpty = false := by
  cases l with
  | nil => exact absurd rfl h
  | cons a t => rfl

/-- The candidate phase of the first `extractProcedureSteps` variant
(lines 94-130): sentence split, pattern matching, newline fallback —
everything before the refinement call. -/
def extractCandidateSteps (content : List Char) (σ : RegexState) :
    List ProcedureStep × RegexState :=
  (if (candidateLoop1
        ((jsSplit isSentenceSep content).filter (fun s => !(trim s).isEmpty))
        1 σ).1.isEmpty then
    fallbackLoop1
      ((jsSplitChar '\n' content).filter (fun l => !(trim l).isEmpty)) 1
   else
    (candidateLoop1
      ((jsSplit isSentenceSep content).filter (fun s => !(trim s).isEmpty))
      1 σ).1,
   (candidateLoop1
     ((jsSplit isSentenceSep content).filter (fun s => !(trim s).isEmpty))
     1 σ).2)

/-- The function `extractProcedureSteps` is the candidate phase followed by conditional
refinement. -/
lemma extractProcedureSteps_def (content : List Char)
    (prompt : Option (List Char)) (σ : RegexState) :
    extractProcedureSteps content prompt σ =
      (if (extractCandidateSteps content σ).1.isEmpty then
        (extractCandidateSteps content σ).1
       else refineSteps (extractCandidateSteps content σ).1 (promptToUse prompt),
       (extractCandidateSteps content σ).2) := rfl

/-- The function `refineSteps` never turns a nonempty step list into an empty one
(line 160 falls back to the input). -/
lemma refineSteps_ne_nil {steps : List ProcedureStep} (h : steps ≠ [])
    (p : List Char) : refineSteps steps p ≠ [] := by
  unfold refineSteps
  by_cases h0 : 0 < (refineLoop steps []).length
  · rw [if_pos h0]
    exact List.length_pos.mp h0
  · rw [if_neg h0]
    exact h

/-- The fallback loop keeps a step for every line whose trimmed length
exceeds 10. -/
lemma fallbackLoop1_ne_nil :
    ∀ (lines : List (List Char)) (order : Nat),
      (∃ l ∈ lines, 10 < (trim l).length) → fallbackLoop1 lines order ≠ [] := by
  intro lines
  induction lines with
  | nil =>
    rintro order ⟨l, hl, -⟩
    cases hl
  | cons a rest ih =>
    rintro order ⟨l, hl, hlen⟩
    by_cases ha : 10 < (trim a).length
    · simp only [fallbackLoop1, if_pos ha]
      exact List.cons_ne_nil _ _
    · simp only [fallbackLoop1, if_neg ha]
      rcases List.mem_cons.mp hl with rfl | hmem
      · exact absurd hlen ha
      · exact ih order ⟨l, hmem, hlen⟩

/-! ### C1 -/

/-- Both templates have 18 entries, strictly increasing day offsets, and
every offset is at least 1. -/
lemma algorithmSchedules_day_chain (alg : Algorithm) :
    List.Chain' (fun a b => a.day < b.day ∧ 1 ≤ a.day)
      (algorithmSchedules alg) := by
  cases alg <;> simp [algorithmSchedules, List.chain'_cons]

/-- C1: for every start date and each algorithm, `calculateReviewDates`
returns one entry per template entry (18 for both algorithms), where entry
`i` carries the template's `i`-th label, `completed = false`, and date
`startDate + (dayOffset_i - 1)`; the resulting dates are strictly
increasing. -/
theorem calculateReviewDates_spec (startDate : Nat) (alg : Algorithm) :
    (calculateReviewDates startDate alg).length =
        (algorithmSchedules alg).length ∧
    (calculateReviewDates startDate alg).length = 18 ∧
    (∀ i : Nat, (calculateReviewDates startDate alg).get? i =
      ((algorithmSchedules alg).get? i).map
        (fun e => ⟨startDate + (e.day - 1), e.label, false⟩)) ∧
    List.Chain' (fun a b => a.date < b.date)
      (calculateReviewDates startDate alg) := by
  refine ⟨by simp [calculateReviewDates], ?_, ?_, ?_⟩
  · cases alg <;> rfl
  · intro i
    simp [calculateReviewDates, List.get?_map]
  · have h := algorithmSchedules_day_chain alg
    unfold calculateReviewDates
    rw [List.chain'_map]
    exact h.imp (fun a b hab => by
      change startDate + (a.day - 1) < startDate + (b.day - 1)
      omega)

/-! ### C2 -/

/-- C2 (amended): whenever the content contains a line whose trimmed form
is longer than 10 characters, extraction returns a nonempty step sequence,
for every refinement prompt and every starting regex state. -/
theorem extract_nonempty_of_long_line (content : List Char)
    (prompt : Option (List Char)) (σ : RegexState)
    (h : ∃ line ∈ jsSplitChar '\n' content, 10 < (trim line).length) :
    (extractProcedureSteps content prompt σ).1 ≠ [] := by
  obtain ⟨line, hmem, hlen⟩ := h
  have hfiltered :
      line ∈ (jsSplitChar '\n' content).filter (fun l => !(trim l).isEmpty) := by
    rw [List.mem_filter]
    refine ⟨hmem, ?_⟩
    have : trim line ≠ [] := by
      intro hnil
      rw [hnil] at hlen
      simp at hlen
    rw [isEmpty_false_of_ne_nil this]
    rfl
  have hs1ne : (extractCandidateSteps content σ).1 ≠ [] := by
    unfold extractCandidateSteps
    by_cases hc :
        (candidateLoop1
          ((jsSplit isSentenceSep content).filter (fun s => !(trim s).isEmpty))
          1 σ).1.isEmpty
    · rw [if_pos hc]
      exact fallbackLoop1_ne_nil _ 1 ⟨line, hfiltered, hlen⟩
    · rw [if_neg hc]
      intro hnil
      rw [hnil] at hc
      exact hc rfl
  rw [extractProcedureSteps_def]
  rw [isEmpty_false_of_ne_nil hs1ne]
  simp only [Bool.false_eq_true, if_false]
  exact refineSteps_ne_nil hs1ne _

/-- C2 (counterexample to the claim as stated): `"abc"` is a nonempty
content string on which extraction returns the empty sequence — no action
pattern matches and the single line is not longer than 10 characters. -/
theorem extract_empty_on_nonempty_input :
    "abc".data ≠ [] ∧
    (extractProcedureSteps "abc".data none initialRegexState).1 = [] := by
  constructor
  · decide
  · decide

/-- Witness for `extract_nonempty_of_long_line` at a concrete input. -/
theorem extract_nonempty_of_long_line_witness :
    (∃ line ∈ jsSplitChar '\n' "Click the Save button now".data,
      10 < (trim line).length) ∧
    (extractProcedureSteps "Click the Save button now".data none
        initialRegexState).1 ≠ [] :=
  ⟨by decide,
   extract_nonempty_of_long_line "Click the Save button now".data none
     initialRegexState (by decide)⟩

/-! ### C4 -/

/-- Number of tokens of the normalized form of a description
(`normalized.split(/\s+/).length`). -/
def tokenCount (d : List Char) : Nat := (splitWords (normalizeDesc d)).length

/-- The overlap numerator computed by `isRedundantStep` for a candidate
description against an existing one
(`words1.filter(word => words2.includes(word)).length`). -/
def tokenOverlapNum (cand existing : List Char) : Nat :=
  overlapCount (splitWords (normalizeDesc cand))
    (splitWords (normalizeDesc existing))

/-- When `isRedundantStep` rejects redundancy, the candidate's overlap
ratio against every kept step is at most `0.7` (embedded exactly as
`10 * overlap ≤ 7 * max`). -/
lemma isRedundantStep_false {d : List Char} {acc : List ProcedureStep}
    (h : isRedundantStep d acc = false) :
    ∀ s ∈ acc, 10 * tokenOverlapNum d s.description ≤
      7 * max (tokenCount d) (tokenCount s.description) := by
  intro s hs
  unfold isRedundantStep at h
  have hx := (List.any_eq_false.mp h) s hs
  simp only [Bool.or_eq_true, not_or, decide_eq_true_eq] at hx
  have hlast := hx.2
  unfold tokenOverlapNum tokenCount
  omega

/-- The kept-steps accumulator of `refineLoop` stays pairwise
low-overlapping: each step admitted later has overlap ratio at most `0.7`
against each earlier kept step. -/
lemma refineLoop_pairwise :
    ∀ (steps acc : List ProcedureStep),
      List.Pairwise (fun a b =>
        10 * tokenOverlapNum b.description a.description ≤
          7 * max (tokenCount b.description) (tokenCount a.description)) acc →
      List.Pairwise (fun a b =>
        10 * tokenOverlapNum b.description a.description ≤
          7 * max (tokenCount b.description) (tokenCount a.description))
        (refineLoop steps acc) := by
  intro steps
  induction steps with
  | nil => intro acc h; exact h
  | cons st rest ih =>
    intro acc h
    simp only [refineLoop]
    by_cases hc : (decide (5 < (applyRefinementRules st.description).length) &&
        !isRedundantStep (applyRefinementRules st.description) acc) = true
    · rw [if_pos hc]
      apply ih
      rw [List.pairwise_append]
      refine ⟨h, List.pairwise_singleton _ _, ?_⟩
      intro a ha b hb
      rw [List.mem_singleton] at hb
      subst hb
      have hc' := hc
      rw [Bool.and_eq_true] at hc'
      have hred : isRedundantStep (applyRefinementRules st.description) acc
          = false := by
        cases hr : isRedundantStep (applyRefinementRules st.description) acc
        · rfl
        · rw [hr] at hc'
          exact absurd hc'.2 (by decide)
      have h9 := isRedundantStep_false hred a ha
      simp only [ProcedureStep.description] at *
      exact h9
    · rw [if_neg hc]
      exact ih acc h

/-- C4 (amended): whenever the refinement-and-dedup pass keeps at least one
candidate (so the pre-refinement fallback of line 160 is not taken), no two
distinct steps of the extractor's output have a token-overlap ratio
strictly greater than `0.7`; equivalently, for any later step `sj` and
earlier step `si` of the output, `10 * overlap ≤ 7 * max`. -/
theorem extract_no_high_overlap (content : List Char)
    (prompt : Option (List Char)) (σ : RegexState)
    (hkeep : refineLoop (extractCandidateSteps content σ).1 [] ≠ [])
    (i j : Nat) (hij : i < j) (si sj : ProcedureStep)
    (hsi : (extractProcedureSteps content prompt σ).1.get? i = some si)
    (hsj : (extractProcedureSteps content prompt σ).1.get? j = some sj) :
    10 * tokenOverlapNum sj.description si.description ≤
      7 * max (tokenCount sj.description) (tokenCount si.description) := by
  have hout : (extractProcedureSteps content prompt σ).1 =
      refineLoop (extractCandidateSteps content σ).1 [] := by
    rw [extractProcedureSteps_def]
    by_cases he : (extractCandidateSteps content σ).1.isEmpty
    · exfalso
      apply hkeep
      have hnil : (extractCandidateSteps content σ).1 = [] := by
        cases hl : (extractCandidateSteps content σ).1 with
        | nil => rfl
        | cons a t => rw [hl] at he; exact absurd he (by simp)
      rw [hnil]
      rfl
    · rw [Bool.eq_false_iff.mpr he]
      simp only [Bool.false_eq_true, if_false]
      unfold refineSteps
      rw [if_pos (List.length_pos.mpr hkeep)]
  rw [hout] at hsi hsj
  have hp := refineLoop_pairwise (extractCandidateSteps content σ).1 []
    List.Pairwise.nil
  rw [List.pairwise_iff_get] at hp
  obtain ⟨hi, hgi⟩ := List.get?_eq_some.mp hsi
  obtain ⟨hj, hgj⟩ := List.get?_eq_some.mp hsj
  have hr := hp ⟨i, hi⟩ ⟨j, hj⟩ hij
  rw [hgi, hgj] at hr
  exact hr

/-- C4 (counterexample to the claim as stated): on content
`"set. set. set"` every refined candidate is dropped (refined form
`"Set."` has length at most 5), so the pre-refinement fallback returns two
distinct steps with identical token sets — overlap ratio `1 ≥ 0.7` — and
both appear in the output. -/
theorem extract_high_overlap_pair_in_output :
    (extractProcedureSteps "set. set. set".data none initialRegexState).1 =
      [⟨1, "set".data⟩, ⟨2, "set".data⟩] ∧
    (⟨1, "set".data⟩ : ProcedureStep) ≠ ⟨2, "set".data⟩ ∧
    7 * max (tokenCount "set".data) (tokenCount "set".data) ≤
      10 * tokenOverlapNum "set".data "set".data := by
  refine ⟨by decide, by decide, by decide⟩

/-- Witness for `extract_no_high_overlap` at a concrete two-step output. -/
theorem extract_no_high_overlap_witness :
    (refineLoop (extractCandidateSteps
        "Click the red door. Open the save menu now".data
        initialRegexState).1 [] ≠ []) ∧
    10 * tokenOverlapNum "Open the save menu now.".data
        "Click the red door.".data ≤
      7 * max (tokenCount "Open the save menu now.".data)
        (tokenCount "Click the red door.".data) :=
  ⟨by decide,
   extract_no_high_overlap "Click the red door. Open the save menu now".data
     none initialRegexState (by decide) 0 1 (by decide)
     ⟨1, "Click the red door.".data⟩ ⟨2, "Open the save menu now.".data⟩
     (by decide) (by decide)⟩

/-! ### C8 -/

/-- C8: the extractor is not a stateless pure function of its input.  The
module-level regexes carry the `g` flag, so their `lastIndex` persists
between calls: on `"click it"` the first call (from the initial state)
returns one step, while an identical second call resumes the first pattern
at `lastIndex = 5`, matches nothing, and returns no steps. -/
theorem extract_not_stateless :
    (extractProcedureSteps "click it".data none initialRegexState).1 =
      [⟨1, "Click it.".data⟩] ∧
    (extractProcedureSteps "click it".data none
        (extractProcedureSteps "click it".data none initialRegexState).2).1 =
      [] := by
  constructor
  · decide
  · decide

/-! ### C10 -/

/-- The two copies of the sentence loop compute identical results. -/
lemma candidateLoop_agree :
    ∀ (l : List (List Char)) (order : Nat) (σ : RegexState),
      candidateLoop2 l order σ = candidateLoop1 l order σ := by
  intro l
  induction l with
  | nil => intro order σ; rfl
  | cons a rest ih =>
    intro order σ
    simp only [candidateLoop1, candidateLoop2, ih]

/-- The two copies of the fallback loop compute identical results. -/
lemma fallbackLoop_agree :
    ∀ (l : List (List Char)) (order : Nat),
      fallbackLoop2 l order = fallbackLoop1 l order := by
  intro l
  induction l with
  | nil => intro order; rfl
  | cons a rest ih =>
    intro order
    simp only [fallbackLoop1, fallbackLoop2, ih]

/-- C10 (amended): the two extractor variants are not extensionally equal;
the precise relationship is that the first variant equals the second
variant's candidate output passed through `refineSteps` (when nonempty),
with both leaving the same regex state. -/
theorem extract_variants_relation (content : List Char)
    (prompt : Option (List Char)) (σ : RegexState) :
    extractProcedureSteps content prompt σ =
      (if (extractProcedureSteps2 content prompt σ).1.isEmpty then
        (extractProcedureSteps2 content prompt σ).1
       else refineSteps (extractProcedureSteps2 content prompt σ).1
         (promptToUse prompt),
       (extractProcedureSteps2 content prompt σ).2) := by
  have h2 : extractProcedureSteps2 content prompt σ =
      extractCandidateSteps content σ := by
    unfold extractProcedureSteps2 extractCandidateSteps
    simp only [candidateLoop_agree, fallbackLoop_agree]
  rw [h2, extractProcedureSteps_def]

/-- C10 (counterexample to the claim as stated): on
`"click it now please"` the first variant refines the step (capitalization
and terminal punctuation) while the second returns it verbatim. -/
theorem extract_variants_differ :
    (extractProcedureSteps "click it now please".data none
        initialRegexState).1 =
      [⟨1, "Click it now please.".data⟩] ∧
    (extractProcedureSteps2 "click it now please".data none
        initialRegexState).1 =
      [⟨1, "click it now please".data⟩] ∧
    (extractProcedureSteps "click it now please".data none
        initialRegexState).1 ≠
      (extractProcedureSteps2 "click it now please".data none
        initialRegexState).1 := by
  refine ⟨by decide, by decide, by decide⟩

/-! ### Store helper lemmas -/

/-- Unpacking a successful JS array subscript. -/
lemma getI_eq_some {α : Type} {l : List α} {i : Int} {a : α}
    (h : getI l i = some a) :
    0 ≤ i ∧ i.toNat < l.length ∧ l.get? i.toNat = some a := by
  unfold getI at h
  by_cases h0 : 0 ≤ i
  · rw [if_pos h0] at h
    obtain ⟨hl, -⟩ := List.get?_eq_some.mp h
    exact ⟨h0, hl, h⟩
  · rw [if_neg h0] at h
    cases h

/-- Boolean case split helper: a non-true `Bool` is `false`. -/
lemma bool_eq_false {b : Bool} (h : ¬b = true) : b = false := by
  cases hb : b
  · rfl
  · exact absurd hb h

/-- A found procedure carries the looked-up id. -/
lemma findProc_id {store : List Procedure} {pid : String} {p : Procedure}
    (h : findProc store pid = some p) : p.id = pid := by
  unfold findProc at h
  have hb : (p.id == pid) = true :=
    @List.find?_some Procedure (fun q => q.id == pid) p store h
  exact eq_of_beq hb

/-- After replacing the stored procedure, lookup returns the replacement. -/
lemma findProc_updateStore {store : List Procedure} {pid : String}
    {p q : Procedure} (h : findProc store pid = some p) (hq : q.id = pid) :
    findProc (updateStore store pid q) pid = some q := by
  induction store with
  | nil => simp [findProc] at h
  | cons r rest ih =>
    unfold updateStore
    by_cases hr : (r.id == pid) = true
    · rw [if_pos hr]
      unfold findProc
      have hq' : (q.id == pid) = true := by simp [hq]
      simp [List.find?, hq']
    · rw [if_neg hr]
      have hr' : (r.id == pid) = false := bool_eq_false hr
      unfold findProc at h ⊢
      simp only [List.find?, hr'] at h ⊢
      exact ih h

/-- Replacing the stored procedure by itself is the identity. -/
lemma updateStore_self {store : List Procedure} {pid : String} {p : Procedure}
    (h : findProc store pid = some p) : updateStore store pid p = store := by
  induction store with
  | nil => rfl
  | cons r rest ih =>
    unfold updateStore
    by_cases hr : (r.id == pid) = true
    · rw [if_pos hr]
      unfold findProc at h
      simp only [List.find?, hr] at h
      injection h with h
      rw [h]
    · rw [if_neg hr]
      have hr' : (r.id == pid) = false := bool_eq_false hr
      unfold findProc at h
      simp only [List.find?, hr'] at h
      rw [ih h]

/-- Reading back the element just written. -/
lemma get?_set_self {α : Type} {l : List α} {n : Nat} {a b : α}
    (h : l.get? n = some b) : (l.set n a).get? n = some a := by
  rw [List.get?_set_eq, h]
  rfl

/-- Writing back the element already present is the identity. -/
lemma set_get?_self {α : Type} :
    ∀ {l : List α} {n : Nat} {a : α}, l.get? n = some a → l.set n a = l := by
  intro l
  induction l with
  | nil => intro n a h; cases h
  | cons x t ih =>
    intro n a h
    cases n with
    | zero =>
      injection h with h
      rw [h]
      rfl
    | succ m =>
      have hm : t.get? m = some a := h
      simp [List.set, ih hm]

/-- Searching with `find?` over `enumFrom` misses when the predicate fails at every
position. -/
lemma enumFrom_find?_eq_none {α : Type} {P : Nat × α → Bool} :
    ∀ (l : List α) (n : Nat),
      (∀ j r, l.get? j = some r → P (n + j, r) = false) →
      (List.enumFrom n l).find? P = none := by
  intro l
  induction l with
  | nil => intro n h; rfl
  | cons a t ih =>
    intro n h
    have ha : P (n, a) = false := by
      have := h 0 a rfl
      rwa [Nat.add_zero] at this
    rw [List.enumFrom]
    simp only [List.find?, ha]
    apply ih
    intro j r hj
    have := h (j + 1) r hj
    rwa [show n + (j + 1) = n + 1 + j by omega] at this

/-- Searching with `find?` over `enumFrom` returns the first position satisfying the
predicate. -/
lemma enumFrom_find?_min {α : Type} {P : Nat × α → Bool} :
    ∀ (l : List α) (n j : Nat) (r : α),
      l.get? j = some r → P (n + j, r) = true →
      (∀ j' r', j' < j → l.get? j' = some r' → P (n + j', r') = false) →
      (List.enumFrom n l).find? P = some (n + j, r) := by
  intro l
  induction l with
  | nil =>
    intro n j r h
    cases h
  | cons a t ih =>
    intro n j r hget hP hmin
    cases j with
    | zero =>
      injection hget with hget
      subst hget
      have hP0 : P (n, a) = true := by rwa [Nat.add_zero] at hP
      rw [List.enumFrom]
      simp only [List.find?, hP0]
      rw [Nat.add_zero]
    | succ m =>
      have ha : P (n, a) = false := by
        have := hmin 0 a (Nat.succ_pos m) rfl
        rwa [Nat.add_zero] at this
      rw [List.enumFrom]
      simp only [List.find?, ha]
      have hres := ih (n + 1) m r hget
        (by rw [show n + 1 + m = n + (m + 1) by omega]; exact hP)
        (by
          intro j' r' hj' hg'
          have := hmin (j' + 1) r' (by omega) hg'
          rwa [show n + (j' + 1) = n + 1 + j' by omega] at this)
      rwa [show n + 1 + m = n + (m + 1) by omega] at hres

/-- The function `enum` is `enumFrom 0`, exposed as a rewriting lemma. -/
lemma enum_eq_enumFrom {α : Type} (l : List α) : l.enum = List.enumFrom 0 l :=
  rfl

/-- Membership in `enumFrom` is position-indexed lookup. -/
lemma mem_enumFrom_iff {α : Type} :
    ∀ (l : List α) (n i : Nat) (x : α),
      (i, x) ∈ List.enumFrom n l ↔ ∃ j, i = n + j ∧ l.get? j = some x := by
  intro l
  induction l with
  | nil =>
    intro n i x
    constructor
    · intro h; cases h
    · rintro ⟨j, -, hj⟩; cases hj
  | cons a t ih =>
    intro n i x
    rw [List.enumFrom, List.mem_cons]
    constructor
    · rintro (h | h)
      · injection h with h1 h2
        exact ⟨0, by omega, by rw [h2]; rfl⟩
      · obtain ⟨j, rfl, hj⟩ := (ih (n + 1) i x).mp h
        exact ⟨j + 1, by omega, hj⟩
    · rintro ⟨j, rfl, hj⟩
      cases j with
      | zero =>
        injection hj with hj
        left
        rw [hj, Nat.add_zero]
      | succ m =>
        right
        exact (ih (n + 1) (n + (m + 1)) x).mpr ⟨m, by omega, hj⟩

/-! ### C3 -/

/-- A concrete stored procedure used by the evaluation theorems. -/
def sampleProc : Procedure :=
  { id := "1", title := "Tie shoes",
    steps := [⟨1, "Tie the laces".data⟩],
    algorithm := .motor, createdAt := 0, currentStep := 0,
    reviewDates := calculateReviewDates 0 .motor }

/-- A store holding `sampleProc` only. -/
def sampleStore : List Procedure := [sampleProc]

/-- C3: evaluation at the failing inputs.  An unknown id gives the tagged
not-found failure for both handlers, and `mark_reviewed` rejects an index
that is `≥ length`; but `mark_reviewed` on a negative index and
`delay_review` on any out-of-range index throw a `TypeError` (reading a
property of `undefined`) instead of returning the tagged invalid-index
failure. -/
theorem handlers_bad_index_behaviour :
    markReviewed sampleStore "2" 0 = .notFound ∧
    delayReview sampleStore "2" 0 = .notFound ∧
    markReviewed sampleStore "1" 18 = .invalidIndex ∧
    markReviewed sampleStore "1" (-1) = .typeError ∧
    delayReview sampleStore "1" 18 = .typeError ∧
    delayReview sampleStore "1" 18 ≠ .invalidIndex ∧
    delayReview sampleStore "1" (-1) = .typeError := by
  refine ⟨by decide, by decide, by decide, by decide, by decide, by decide,
    by decide⟩

/-! ### C5 -/

/-- Successful subscript after a write at the same index. -/
lemma getI_set_self {α : Type} {l : List α} {i : Int} {a b : α}
    (h : getI l i = some b) : getI (l.set i.toNat a) i = some a := by
  obtain ⟨h0, hlt, hg⟩ := getI_eq_some h
  unfold getI
  rw [if_pos h0]
  exact get?_set_self hg

/-- The success shape of the `mark_reviewed` handler: found procedure,
in-range index. -/
lemma markReviewed_ok (store : List Procedure) (pid : String) (idx : Int)
    (proc : Procedure) (ev : ReviewDate)
    (hfind : findProc store pid = some proc)
    (hget : getI proc.reviewDates idx = some ev) :
    markReviewed store pid idx =
      .ok (updateStore store pid
            { proc with
                reviewDates :=
                  proc.reviewDates.set idx.toNat { ev with completed := true },
                currentStep := idx + 1 },
           ⟨ev.label,
            ((proc.reviewDates.set idx.toNat
                { ev with completed := true }).enum.find?
                (fun p => decide (idx < (p.1 : Int)) && !p.2.completed)).map
              (fun p => (p.2.date, p.2.label))⟩) := by
  obtain ⟨h0, hlt, hg⟩ := getI_eq_some hget
  have hguard : ¬((proc.reviewDates.length : Int) ≤ idx) := by omega
  unfold markReviewed
  rw [hfind]
  simp only [if_neg hguard]
  rw [hget]

/-- C5: a successful `mark_reviewed` on a stored procedure and an in-range
index sets `completed` at that index, sets `currentStep = reviewIndex + 1`,
reports the completed label, and reports as `nextReview` the
lowest-indexed pending event at an index strictly greater than
`reviewIndex` (or none when every later event is completed) — a purely
positional lookahead, independent of the events' dates. -/
theorem markReviewed_spec (store : List Procedure) (pid : String) (idx : Int)
    (proc : Procedure) (ev : ReviewDate)
    (hfind : findProc store pid = some proc)
    (hget : getI proc.reviewDates idx = some ev) :
    ∃ store' res, markReviewed store pid idx = .ok (store', res) ∧
      store' = updateStore store pid
        { proc with
            reviewDates :=
              proc.reviewDates.set idx.toNat { ev with completed := true },
            currentStep := idx + 1 } ∧
      findProc store' pid = some
        { proc with
            reviewDates :=
              proc.reviewDates.set idx.toNat { ev with completed := true },
            currentStep := idx + 1 } ∧
      res.completedReview = ev.label ∧
      ((∀ j r, (proc.reviewDates.set idx.toNat
            { ev with completed := true }).get? j = some r →
          idx < (j : Int) → r.completed = true) → res.nextReview = none) ∧
      (∀ j r, (proc.reviewDates.set idx.toNat
            { ev with completed := true }).get? j = some r →
        idx < (j : Int) → r.completed = false →
        (∀ j' r', j' < j → (proc.reviewDates.set idx.toNat
            { ev with completed := true }).get? j' = some r' →
          idx < (j' : Int) → r'.completed = true) →
        res.nextReview = some (r.date, r.label)) := by
  obtain ⟨h0, hlt, hg⟩ := getI_eq_some hget
  have heq := markReviewed_ok store pid idx proc ev hfind hget
  refine ⟨_, _, heq, rfl, ?_, rfl, ?_, ?_⟩
  · apply findProc_updateStore hfind
    show proc.id = pid
    exact findProc_id hfind
  · intro hall
    have hnone : List.find?
        (fun p => decide (idx < (p.1 : Int)) && !p.2.completed)
        (List.enumFrom 0 (proc.reviewDates.set idx.toNat
          { ev with completed := true })) = none := by
      apply @enumFrom_find?_eq_none ReviewDate
        (fun p => decide (idx < (p.1 : Int)) && !p.2.completed)
      intro j r hj
      show (decide (idx < ((0 + j : Nat) : Int)) && !r.completed) = false
      rw [Nat.zero_add]
      by_cases hij : idx < (j : Int)
      · rw [hall j r hj hij]
        simp
      · simp [hij]
    show (Option.map (fun p => (p.2.date, p.2.label))
        (List.find? (fun p => decide (idx < (p.1 : Int)) && !p.2.completed)
          (proc.reviewDates.set idx.toNat
            { ev with completed := true }).enum)) = none
    rw [enum_eq_enumFrom, hnone]
    rfl
  · intro j r hj hij hcomp hmin
    have hP : (decide (idx < ((0 + j : Nat) : Int)) && !r.completed) = true := by
      rw [Nat.zero_add, hcomp]
      simp [hij]
    have hM : ∀ j' r', j' < j →
        (proc.reviewDates.set idx.toNat
          { ev with completed := true }).get? j' = some r' →
        (decide (idx < ((0 + j' : Nat) : Int)) && !r'.completed) = false := by
      intro j' r' hj' hg'
      rw [Nat.zero_add]
      by_cases hij' : idx < (j' : Int)
      · rw [hmin j' r' hj' hg' hij']
        simp
      · simp [hij']
    have hsome : List.find?
        (fun p => decide (idx < (p.1 : Int)) && !p.2.completed)
        (List.enumFrom 0 (proc.reviewDates.set idx.toNat
          { ev with completed := true })) = some (j, r) := by
      have := @enumFrom_find?_min ReviewDate
        (fun p => decide (idx < (p.1 : Int)) && !p.2.completed)
        (proc.reviewDates.set idx.toNat { ev with completed := true }) 0 j r
        hj hP hM
      rwa [Nat.zero_add] at this
    show (Option.map (fun p => (p.2.date, p.2.label))
        (List.find? (fun p => decide (idx < (p.1 : Int)) && !p.2.completed)
          (proc.reviewDates.set idx.toNat
            { ev with completed := true }).enum)) = some (r.date, r.label)
    rw [enum_eq_enumFrom, hsome]
    rfl

/-- Witness for `markReviewed_spec`: marking index 0 of the sample motor
procedure reports the day-1 label and surfaces the day-2 event as next. -/
theorem markReviewed_spec_witness :
    ∃ store' res, markReviewed sampleStore "1" 0 = .ok (store', res) ∧
      res.completedReview = "Day 1: Initial Learning" ∧
      res.nextReview = some (1, "Day 2: Practice") := by
  obtain ⟨s', r, heq, -, -, hlabel, -, hsome⟩ :=
    markReviewed_spec sampleStore "1" 0 sampleProc
      ⟨0, "Day 1: Initial Learning", false⟩ (by decide) (by decide)
  refine ⟨s', r, heq, hlabel, ?_⟩
  have := hsome 1 ⟨1, "Day 2: Practice", false⟩ (by decide) (by decide) rfl
    (by
      intro j' r' hj' hg' hij'
      exfalso
      omega)
  exact this

/-! ### C6 -/

/-- Iterated delays: `n` successive delays on the same index advance its date by exactly
`n` days and touch nothing else (generalized over the event's fields for
the induction). -/
lemma delayIter_spec :
    ∀ (n : Nat) (store : List Procedure) (pid : String) (idx : Int)
      (proc : Procedure) (d0 : Nat) (lab : String) (cpl : Bool),
      findProc store pid = some proc →
      getI proc.reviewDates idx = some ⟨d0, lab, cpl⟩ →
      ∃ storeN, delayIter n store pid idx = some storeN ∧
        findProc storeN pid = some
          { proc with reviewDates :=
              proc.reviewDates.set idx.toNat ⟨d0 + n, lab, cpl⟩ } := by
  intro n
  induction n with
  | zero =>
    intro store pid idx proc d0 lab cpl hfind hget
    obtain ⟨h0, hlt, hg⟩ := getI_eq_some hget
    refine ⟨store, rfl, ?_⟩
    show findProc store pid = some
      { proc with reviewDates := proc.reviewDates.set idx.toNat ⟨d0, lab, cpl⟩ }
    rw [set_get?_self hg]
    exact hfind
  | succ m ih =>
    intro store pid idx proc d0 lab cpl hfind hget
    obtain ⟨h0, hlt, hg⟩ := getI_eq_some hget
    have heq : delayReview store pid idx = .ok (updateStore store pid
        { proc with reviewDates :=
            proc.reviewDates.set idx.toNat ⟨d0 + 1, lab, cpl⟩ },
        d0 + 1) := by
      simp only [delayReview, hfind, hget]
    have hfind1 : findProc (updateStore store pid
        { proc with reviewDates :=
            proc.reviewDates.set idx.toNat ⟨d0 + 1, lab, cpl⟩ }) pid = some
        { proc with reviewDates :=
            proc.reviewDates.set idx.toNat ⟨d0 + 1, lab, cpl⟩ } := by
      apply findProc_updateStore hfind
      show proc.id = pid
      exact findProc_id hfind
    have hget1 : getI (proc.reviewDates.set idx.toNat ⟨d0 + 1, lab, cpl⟩)
        idx = some ⟨d0 + 1, lab, cpl⟩ := by
      unfold getI
      rw [if_pos h0]
      exact get?_set_self hg
    obtain ⟨storeN, hiter, hfindN⟩ :=
      ih (updateStore store pid
          { proc with reviewDates :=
              proc.reviewDates.set idx.toNat ⟨d0 + 1, lab, cpl⟩ }) pid idx
        { proc with reviewDates :=
            proc.reviewDates.set idx.toNat ⟨d0 + 1, lab, cpl⟩ }
        (d0 + 1) lab cpl hfind1 hget1
    refine ⟨storeN, ?_, ?_⟩
    · show (match delayReview store pid idx with
        | .ok (s, _) => delayIter m s pid idx
        | _ => none) = some storeN
      rw [heq]
      exact hiter
    · simp only [List.set_set] at hfindN
      rw [show d0 + 1 + m = d0 + (m + 1) by omega] at hfindN
      exact hfindN

/-- C6: a successful `delay_review` on a stored procedure and an in-range
index replaces the event's date by exactly the next calendar day, leaves
its label and `completed` flag (and every other field of the procedure)
unchanged, and reports the new date; `n` successive delays advance the
date by exactly `n` calendar days. -/
theorem delayReview_spec (store : List Procedure) (pid : String) (idx : Int)
    (proc : Procedure) (ev : ReviewDate)
    (hfind : findProc store pid = some proc)
    (hget : getI proc.reviewDates idx = some ev) :
    (delayReview store pid idx = .ok (updateStore store pid
        { proc with reviewDates :=
            proc.reviewDates.set idx.toNat { ev with date := ev.date + 1 } },
        ev.date + 1) ∧
      findProc (updateStore store pid
        { proc with reviewDates :=
            proc.reviewDates.set idx.toNat { ev with date := ev.date + 1 } })
        pid = some
        { proc with reviewDates :=
            proc.reviewDates.set idx.toNat { ev with date := ev.date + 1 } }) ∧
    (∀ n : Nat, ∃ storeN, delayIter n store pid idx = some storeN ∧
      findProc storeN pid = some
        { proc with reviewDates :=
            proc.reviewDates.set idx.toNat { ev with date := ev.date + n } }) := by
  have hget' : getI proc.reviewDates idx =
      some ⟨ev.date, ev.label, ev.completed⟩ := hget
  refine ⟨⟨?_, ?_⟩, ?_⟩
  · simp only [delayReview, hfind, hget]
  · apply findProc_updateStore hfind
    show proc.id = pid
    exact findProc_id hfind
  · intro n
    exact delayIter_spec n store pid idx proc ev.date ev.label ev.completed
      hfind hget'

/-- Witness for `delayReview_spec`: delaying index 0 of the sample motor
procedure three times moves its date from day 0 to day 3 and leaves it
pending. -/
theorem delayReview_spec_witness :
    ∃ storeN, delayIter 3 sampleStore "1" 0 = some storeN ∧
      findProc storeN "1" = some
        { sampleProc with reviewDates :=
            sampleProc.reviewDates.set 0 ⟨3, "Day 1: Initial Learning", false⟩ } := by
  obtain ⟨-, hiter⟩ :=
    delayReview_spec sampleStore "1" 0 sampleProc
      ⟨0, "Day 1: Initial Learning", false⟩ (by decide) (by decide)
  exact hiter 3

/-! ### C7 -/

/-- The store produced by a successful `mark_reviewed` (empty store on
failure; used only on success paths). -/
def okStoreMark (o : Outcome (List Procedure × MarkResult)) :
    List Procedure :=
  match o with
  | .ok (s, _) => s
  | _ => []

/-- Sample store after `mark_reviewed("1", 0)`. -/
def c7s1 : List Procedure := okStoreMark (markReviewed sampleStore "1" 0)

/-- Sample store after `mark_reviewed("1", 0)` then `mark_reviewed("1", 1)`. -/
def c7s2 : List Procedure := okStoreMark (markReviewed c7s1 "1" 1)

/-- C7 (counterexample to the claim as stated): in `c7s2` the event at
index 0 is already completed and `currentStep = 2`; re-marking index 0
succeeds (no error) but resets `currentStep` to 1, so the procedure state
is not left unchanged. -/
theorem remark_changes_state :
    ((findProc c7s2 "1").map (fun p => p.currentStep)) = some 2 ∧
    (((findProc c7s2 "1").bind (fun p => getI p.reviewDates 0)).map
      (fun r => r.completed)) = some true ∧
    markReviewed c7s2 "1" 0 ≠ .notFound ∧
    markReviewed c7s2 "1" 0 ≠ .invalidIndex ∧
    markReviewed c7s2 "1" 0 ≠ .typeError ∧
    okStoreMark (markReviewed c7s2 "1" 0) ≠ c7s2 ∧
    ((findProc (okStoreMark (markReviewed c7s2 "1" 0)) "1").map
      (fun p => p.currentStep)) = some 1 := by
  refine ⟨by decide, by decide, by decide, by decide, by decide, by decide,
    by decide⟩

/-- C7 (amended): re-marking an already-completed index never errors and
leaves the review schedule untouched — the only write is
`currentStep := reviewIndex + 1`; consequently the whole procedure state
(and the store) is unchanged exactly when `currentStep` already equals
`reviewIndex + 1`, as after an immediately preceding mark of the same
index. -/
theorem markReviewed_remark_completed (store : List Procedure) (pid : String)
    (idx : Int) (proc : Procedure) (ev : ReviewDate)
    (hfind : findProc store pid = some proc)
    (hget : getI proc.reviewDates idx = some ev)
    (hcompleted : ev.completed = true) :
    markReviewed store pid idx = .ok
      (updateStore store pid { proc with currentStep := idx + 1 },
       ⟨ev.label,
        (proc.reviewDates.enum.find?
            (fun p => decide (idx < (p.1 : Int)) && !p.2.completed)).map
          (fun p => (p.2.date, p.2.label))⟩) ∧
    (proc.currentStep = idx + 1 →
      markReviewed store pid idx = .ok (store,
       ⟨ev.label,
        (proc.reviewDates.enum.find?
            (fun p => decide (idx < (p.1 : Int)) && !p.2.completed)).map
          (fun p => (p.2.date, p.2.label))⟩)) := by
  obtain ⟨h0, hlt, hg⟩ := getI_eq_some hget
  have hev : ({ ev with completed := true } : ReviewDate) = ev := by
    cases ev with
    | mk d l c =>
      have hc : c = true := hcompleted
      subst hc
      rfl
  have heq := markReviewed_ok store pid idx proc ev hfind hget
  rw [hev, set_get?_self hg] at heq
  refine ⟨heq, ?_⟩
  intro hcs
  have hproc : ({ proc with currentStep := idx + 1 } : Procedure) = proc := by
    rw [← hcs]
  rw [hproc, updateStore_self hfind] at heq
  exact heq

/-- Witness for `markReviewed_remark_completed`: immediately re-marking
index 0 of the sample procedure returns the same store and response. -/
theorem markReviewed_remark_completed_witness :
    markReviewed c7s1 "1" 0 = .ok (c7s1,
      ⟨"Day 1: Initial Learning", some (1, "Day 2: Practice")⟩) := by
  obtain ⟨-, h2⟩ := markReviewed_remark_completed c7s1 "1" 0
    { sampleProc with
        reviewDates :=
          sampleProc.reviewDates.set 0 ⟨0, "Day 1: Initial Learning", true⟩,
        currentStep := 1 }
    ⟨0, "Day 1: Initial Learning", true⟩ (by decide) (by decide) rfl
  have h3 := h2 (by decide)
  exact h3.trans (by decide)

/-! ### C9 -/

/-- Contribution of a single `(index, review)` pair to the review queue:
one item when the date matches and the event is pending, none otherwise. -/
def dueEntry (d : Nat) (p : Procedure) (q : Nat × ReviewDate) :
    List ReviewItem :=
  if q.2.date == d && !q.2.completed then [mkReviewItem p q.1 q.2] else []

/-- Contribution of a whole procedure to the review queue. -/
def dueBlock (d : Nat) (p : Procedure) : List ReviewItem :=
  p.reviewDates.enum.flatMap (dueEntry d p)

/-- Folding with a conditional push is appending the collected pushes. -/
lemma foldl_append {α β : Type} (g : α → List β) :
    ∀ (l : List α) (acc : List β),
      l.foldl (fun a x => a ++ g x) acc = acc ++ l.flatMap g := by
  intro l
  induction l with
  | nil => intro acc; simp
  | cons x t ih =>
    intro acc
    simp only [List.foldl_cons, List.flatMap_cons, ih, List.append_assoc]

/-- The `get_review_queue` handler computes exactly the concatenation of
the per-procedure blocks. -/
lemma getReviewQueue_eq (store : List Procedure) (d : Nat) :
    getReviewQueue store d = .ok (store.flatMap (dueBlock d)) := by
  unfold getReviewQueue
  congr 1
  have hinner : ∀ (p : Procedure) (acc : List ReviewItem),
      p.reviewDates.enum.foldl
        (fun acc2 q =>
          if q.2.date == d && !q.2.completed then
            acc2 ++ [mkReviewItem p q.1 q.2]
          else acc2) acc = acc ++ dueBlock d p := by
    intro p acc
    have hfun : (fun (acc2 : List ReviewItem) (q : Nat × ReviewDate) =>
        if q.2.date == d && !q.2.completed then
          acc2 ++ [mkReviewItem p q.1 q.2]
        else acc2) = fun acc2 q => acc2 ++ dueEntry d p q := by
      funext acc2 q
      unfold dueEntry
      by_cases hc : (q.2.date == d && !q.2.completed) = true
      · rw [if_pos hc, if_pos hc]
      · rw [if_neg hc, if_neg hc, List.append_nil]
    rw [hfun]
    exact foldl_append _ _ acc
  have houter : ∀ (l : List Procedure) (acc : List ReviewItem),
      l.foldl
        (fun acc p =>
          p.reviewDates.enum.foldl
            (fun acc2 q =>
              if q.2.date == d && !q.2.completed then
                acc2 ++ [mkReviewItem p q.1 q.2]
              else acc2) acc) acc = acc ++ l.flatMap (dueBlock d) := by
    intro l
    induction l with
    | nil => intro acc; simp
    | cons p t ih =>
      intro acc
      simp only [List.foldl_cons, List.flatMap_cons, hinner p acc, ih,
        List.append_assoc]
  have := houter store []
  rw [this, List.nil_append]

/-- Membership in a procedure's block is exactly a matching pending pair. -/
lemma mem_dueBlock_iff {d : Nat} {p : Procedure} {it : ReviewItem} :
    it ∈ dueBlock d p ↔ ∃ i r, p.reviewDates.get? i = some r ∧
      r.date = d ∧ r.completed = false ∧ it = mkReviewItem p i r := by
  unfold dueBlock
  rw [List.mem_flatMap]
  constructor
  · rintro ⟨q, hq, hit⟩
    obtain ⟨i, r⟩ := q
    rw [enum_eq_enumFrom] at hq
    obtain ⟨j, hij, hget⟩ := (mem_enumFrom_iff _ 0 i r).mp hq
    unfold dueEntry at hit
    by_cases hc : (r.date == d && !r.completed) = true
    · rw [if_pos hc] at hit
      rw [List.mem_singleton] at hit
      rw [Bool.and_eq_true] at hc
      refine ⟨i, r, ?_, eq_of_beq hc.1, ?_, hit⟩
      · rw [show i = j from by omega]
        exact hget
      · cases hcpl : r.completed
        · rfl
        · rw [hcpl] at hc
          exact absurd hc.2 (by decide)
    · rw [if_neg hc] at hit
      cases hit
  · rintro ⟨i, r, hget, hd, hcpl, rfl⟩
    refine ⟨(i, r), ?_, ?_⟩
    · rw [enum_eq_enumFrom]
      exact (mem_enumFrom_iff _ 0 i r).mpr ⟨i, by omega, hget⟩
    · unfold dueEntry
      rw [if_pos (by simp [hd, hcpl])]
      exact List.mem_singleton.mpr rfl

/-- Every item of a block carries its procedure's id. -/
lemma dueBlock_procedureId {d : Nat} {p : Procedure} {it : ReviewItem}
    (h : it ∈ dueBlock d p) : it.procedureId = p.id := by
  obtain ⟨i, r, -, -, -, rfl⟩ := mem_dueBlock_iff.mp h
  rfl

/-- Filtering one procedure's block at one schedule position yields the
single matching item or nothing. -/
lemma block_filter_eq (d : Nat) (p : Procedure) (i : Nat) (r : ReviewDate) :
    ∀ (l : List ReviewDate) (n j : Nat), i = n + j → l.get? j = some r →
      ((List.enumFrom n l).flatMap (dueEntry d p)).filter
        (fun it => it.procedureId == p.id && it.reviewIndex == i) =
      if r.date = d ∧ r.completed = false then [mkReviewItem p i r]
      else [] := by
  intro l
  induction l with
  | nil =>
    intro n j hij hget
    cases hget
  | cons a t ih =>
    intro n j hij hget
    rw [List.enumFrom, List.flatMap_cons, List.filter_append]
    cases j with
    | zero =>
      injection hget with hget
      subst hget
      have htail : ((List.enumFrom (n + 1) t).flatMap (dueEntry d p)).filter
          (fun it => it.procedureId == p.id && it.reviewIndex == i) = [] := by
        rw [List.filter_eq_nil]
        intro it hit
        rw [List.mem_flatMap] at hit
        obtain ⟨q, hq, hitq⟩ := hit
        obtain ⟨jq, rq⟩ := q
        obtain ⟨j', hj', hgq⟩ := (mem_enumFrom_iff t (n + 1) jq rq).mp hq
        unfold dueEntry at hitq
        by_cases hc : (rq.date == d && !rq.completed) = true
        · rw [if_pos hc] at hitq
          rw [List.mem_singleton] at hitq
          subst hitq
          simp only [mkReviewItem, Bool.and_eq_true, beq_iff_eq, not_and]
          intro hpe
          omega
        · rw [if_neg hc] at hitq
          cases hitq
      rw [htail, List.append_nil]
      unfold dueEntry
      by_cases hc : (a.date == d && !a.completed) = true
      · rw [if_pos hc]
        rw [Bool.and_eq_true] at hc
        have hd : a.date = d := eq_of_beq hc.1
        have hcpl : a.completed = false := by
          cases hcb : a.completed
          · rfl
          · rw [hcb] at hc
            exact absurd hc.2 (by decide)
        rw [if_pos ⟨hd, hcpl⟩]
        have hin : i = n := by omega
        subst hin
        simp [mkReviewItem, List.filter]
      · rw [if_neg hc]
        have hcond : ¬(a.date = d ∧ a.completed = false) := by
          rintro ⟨h1, h2⟩
          apply hc
          simp [h1, h2]
        rw [if_neg hcond]
        rfl
    | succ m =>
      have hhead : ((dueEntry d p (n, a)).filter
          (fun it => it.procedureId == p.id && it.reviewIndex == i)) = [] := by
        unfold dueEntry
        by_cases hc : (a.date == d && !a.completed) = true
        · rw [if_pos hc]
          have : ((n : Nat) == i) = false := by
            simp only [beq_eq_false_iff_ne, ne_eq]
            omega
          simp [mkReviewItem, this]
        · rw [if_neg hc]
          rfl
      rw [hhead, List.nil_append]
      exact ih (n + 1) m (by omega) hget

/-- The queue filtered to one `(procedure, index)` pair, under unique ids:
the single matching item or nothing. -/
lemma queue_filter_eq (d : Nat) :
    ∀ (store : List Procedure) (p : Procedure) (i : Nat) (r : ReviewDate),
      (store.map (fun q => q.id)).Nodup → p ∈ store →
      p.reviewDates.get? i = some r →
      ((store.flatMap (dueBlock d)).filter
        (fun it => it.procedureId == p.id && it.reviewIndex == i)) =
      if r.date = d ∧ r.completed = false then [mkReviewItem p i r]
      else [] := by
  intro store
  induction store with
  | nil =>
    intro p i r hnd hp
    cases hp
  | cons q t ih =>
    intro p i r hnd hp hget
    rw [List.map_cons, List.nodup_cons] at hnd
    rw [List.flatMap_cons, List.filter_append]
    rcases List.mem_cons.mp hp with rfl | hmem
    · have htail : ((t.flatMap (dueBlock d)).filter
          (fun it => it.procedureId == p.id && it.reviewIndex == i)) = [] := by
        rw [List.filter_eq_nil]
        intro it hit
        rw [List.mem_flatMap] at hit
        obtain ⟨s, hs, hits⟩ := hit
        have hid : it.procedureId = s.id := dueBlock_procedureId hits
        have hsp : s.id ≠ p.id := by
          intro he
          exact hnd.1 (he ▸ List.mem_map_of_mem (fun q => q.id) hs)
        simp [hid, hsp]
      rw [htail, List.append_nil]
      unfold dueBlock
      rw [enum_eq_enumFrom]
      exact block_filter_eq d p i r p.reviewDates 0 i (by omega) hget
    · have hqp : (q.id == p.id) = false := by
        have : q.id ≠ p.id := by
          intro he
          exact hnd.1 (he ▸ List.mem_map_of_mem (fun q => q.id) hmem)
        simp [this]
      have hhead : ((dueBlock d q).filter
          (fun it => it.procedureId == p.id && it.reviewIndex == i)) = [] := by
        rw [List.filter_eq_nil]
        intro it hit
        have hid : it.procedureId = q.id := dueBlock_procedureId hit
        simp [hid, hqp]
      rw [hhead, List.nil_append]
      exact ih p i r hnd.2 hmem hget

/-- C9: for every store (with the `Map`'s unique ids) and every queried
date, `get_review_queue` produces — never an error — exactly one item per
`(procedure, index)` pair whose event has the queried date and
`completed == false`, each carrying the procedure's id, title, algorithm,
the schedule index, the event's label and the step count; the result is
empty exactly when no such pair exists. -/
theorem getReviewQueue_spec (store : List Procedure) (d : Nat)
    (hnd : (store.map (fun p => p.id)).Nodup) :
    ∃ items, getReviewQueue store d = .ok items ∧
      (∀ it, it ∈ items ↔ ∃ p ∈ store, ∃ i r,
        p.reviewDates.get? i = some r ∧ r.date = d ∧ r.completed = false ∧
        it = mkReviewItem p i r) ∧
      (∀ p ∈ store, ∀ i r, p.reviewDates.get? i = some r →
        ((items.filter (fun it => it.procedureId == p.id &&
          it.reviewIndex == i)).length =
          if r.date = d ∧ r.completed = false then 1 else 0)) ∧
      (items = [] ↔ ∀ p ∈ store, ∀ i r, p.reviewDates.get? i = some r →
        r.date = d → r.completed = true) := by
  refine ⟨store.flatMap (dueBlock d), getReviewQueue_eq store d, ?_, ?_, ?_⟩
  · intro it
    rw [List.mem_flatMap]
    constructor
    · rintro ⟨p, hp, hit⟩
      obtain ⟨i, r, h1, h2, h3, h4⟩ := mem_dueBlock_iff.mp hit
      exact ⟨p, hp, i, r, h1, h2, h3, h4⟩
    · rintro ⟨p, hp, i, r, h1, h2, h3, h4⟩
      exact ⟨p, hp, mem_dueBlock_iff.mpr ⟨i, r, h1, h2, h3, h4⟩⟩
  · intro p hp i r hget
    rw [queue_filter_eq d store p i r hnd hp hget]
    by_cases hc : r.date = d ∧ r.completed = false
    · rw [if_pos hc, if_pos hc]
      rfl
    · rw [if_neg hc, if_neg hc]
      rfl
  · constructor
    · intro hnil p hp i r hget hd
      cases hcpl : r.completed
      · exfalso
        have : mkReviewItem p i r ∈ store.flatMap (dueBlock d) :=
          List.mem_flatMap.mpr
            ⟨p, hp, mem_dueBlock_iff.mpr ⟨i, r, hget, hd, hcpl, rfl⟩⟩
        rw [hnil] at this
        cases this
      · rfl
    · intro hall
      rw [List.eq_nil_iff_forall_not_mem]
      intro it hit
      rw [List.mem_flatMap] at hit
      obtain ⟨p, hp, hbl⟩ := hit
      obtain ⟨i, r, hget, hd, hcpl, -⟩ := mem_dueBlock_iff.mp hbl
      have := hall p hp i r hget hd
      rw [this] at hcpl
      cases hcpl

/-- Witness for `getReviewQueue_spec`: on day 1 the sample store owes
exactly one review, index 1 of procedure `"1"`. -/
theorem getReviewQueue_spec_witness :
    ∃ items, getReviewQueue sampleStore 1 = .ok items ∧
      ((items.filter (fun it => it.procedureId == "1" &&
        it.reviewIndex == 1)).length = 1) := by
  obtain ⟨items, hok, -, hcount, -⟩ :=
    getReviewQueue_spec sampleStore 1 (by decide)
  refine ⟨items, hok, ?_⟩
  have h2 := hcount sampleProc (by decide) 1 ⟨1, "Day 2: Practice", false⟩
    (by decide)
  rw [if_pos ⟨rfl, rfl⟩] at h2
  exact h2

end ProcMem
